import Mathlib

/-
Verification of the resize library (Go package `resize`): shallow embedding
of the resampling kernels, the separable convolution engine, the pixel
converters with border replication, the geometry planner and the parallel
row dispatcher, over exact arithmetic (Go float32 values are modelled as
rationals, Go ints as integers).
-/

namespace Resize

/-- Truncation of a rational toward zero: the semantics of Go's
float-to-int conversion `int(x)` (the fractional part is discarded). -/
def ratTrunc (q : ℚ) : ℤ :=
  if 0 ≤ q then ⌊q⌋ else ⌈q⌉

theorem ratTrunc_natCast (n : ℕ) : ratTrunc (n : ℚ) = n := by
  simp [ratTrunc]

theorem ratTrunc_frac_add_int (q : ℚ) (m : ℤ) (h : 0 ≤ q) (h1 : q < 1)
    (hm : 0 ≤ m) : ratTrunc (q + m) = m := by
  have h0 : (0 : ℚ) ≤ q + m := by
    have : (0:ℚ) ≤ (m:ℚ) := by exact_mod_cast hm
    linarith
  rw [ratTrunc, if_pos h0, Int.floor_add_int,
    Int.floor_eq_zero_iff.2 ⟨h, h1⟩, zero_add]

theorem ceil_neg_three_halves : ⌈(-3/2 : ℚ)⌉ = -1 := by
  rw [show (-3/2 : ℚ) = -(3/2) by norm_num, Int.ceil_neg]
  norm_num

/-- Embeds `clampToUint16` from resize.go: restrict a float32 to the range
of uint16 values. `y = uint16(x)` truncates; inputs below 0 map to 0 and
inputs above 0xfffe map to 0xffff. -/
def clampToUint16 (x : ℚ) : ℕ :=
  if x < 0 then 0
  else if x > 65534 then 65535
  else (ratTrunc x).toNat

theorem clampToUint16_natCast (n : ℕ) (h : n ≤ 65535) :
    clampToUint16 (n : ℚ) = n := by
  unfold clampToUint16
  rcases Nat.lt_or_ge n 65535 with h1 | h1
  · have h2 : n ≤ 65534 := Nat.lt_succ_iff.mp h1
    rw [if_neg (not_lt.2 (by positivity)),
      if_neg (not_lt.2 (by exact_mod_cast h2)), ratTrunc_natCast]
    simp
  · have : n = 65535 := le_antisymm h h1
    subst this
    norm_num

/-- Embeds `replicateBorder1d` from converter.go: clamp a coordinate into
the half-open interval from mn to mx by border replication. -/
def replicateBorder1d (x mn mx : ℤ) : ℤ :=
  if x < mn then mn
  else if x ≥ mx then mx - 1
  else x

/-- A Go `image.Rectangle`, as used by the converters and by Resize. -/
structure GoRect where
  minX : ℤ
  minY : ℤ
  maxX : ℤ
  maxY : ℤ
deriving DecidableEq, Repr

/-- Width of a rectangle (`Dx` in the Go image package). -/
def GoRect.dx (r : GoRect) : ℤ := r.maxX - r.minX

/-- Height of a rectangle (`Dy` in the Go image package). -/
def GoRect.dy (r : GoRect) : ℤ := r.maxY - r.minY

/-- Embeds `replicateBorder` from converter.go: clamp both coordinates of a
point into a rectangle. -/
def replicateBorder (x y : ℤ) (rect : GoRect) : ℤ × ℤ :=
  (replicateBorder1d x rect.minX rect.maxX, replicateBorder1d y rect.minY rect.maxY)

/-- A Go `image.RGBA` raster: bounds, byte stride and length of the packed
`Pix` byte storage. -/
structure GoRGBA where
  rect : GoRect
  stride : ℤ
  pixLen : ℤ
deriving DecidableEq, Repr

/-- `PixOffset` of the Go image.RGBA type: byte offset of the pixel at
a coordinate pair. -/
def GoRGBA.pixOffset (img : GoRGBA) (x y : ℤ) : ℤ :=
  (y - img.rect.minY) * img.stride + (x - img.rect.minX) * 4

/-- Well-formedness of an `image.RGBA` as produced by `image.NewRGBA`:
the stride is four bytes per pixel of one row and the storage covers all
rows. -/
def GoRGBA.wf (img : GoRGBA) : Prop :=
  img.stride = 4 * img.rect.dx ∧ img.pixLen = img.stride * img.rect.dy

theorem replicateBorder1d_mem (x mn mx : ℤ) (h : mn < mx) :
    mn ≤ replicateBorder1d x mn mx ∧ replicateBorder1d x mn mx < mx := by
  unfold replicateBorder1d
  split_ifs with h1 h2 <;> omega

theorem replicateBorder_mem (x y : ℤ) (rect : GoRect)
    (hx : rect.minX < rect.maxX) (hy : rect.minY < rect.maxY) :
    rect.minX ≤ (replicateBorder x y rect).1 ∧
      (replicateBorder x y rect).1 < rect.maxX ∧
      rect.minY ≤ (replicateBorder x y rect).2 ∧
      (replicateBorder x y rect).2 < rect.maxY := by
  obtain ⟨h1, h2⟩ := replicateBorder1d_mem x rect.minX rect.maxX hx
  obtain ⟨h3, h4⟩ := replicateBorder1d_mem y rect.minY rect.maxY hy
  exact ⟨h1, h2, h3, h4⟩

theorem pixOffset_in_bounds (img : GoRGBA) (hwf : img.wf)
    (x y : ℤ) (hx : img.rect.minX ≤ x) (hx2 : x < img.rect.maxX)
    (hy : img.rect.minY ≤ y) (hy2 : y < img.rect.maxY) :
    0 ≤ img.pixOffset x y ∧ img.pixOffset x y + 3 < img.pixLen := by
  obtain ⟨hs, hp⟩ := hwf
  unfold GoRGBA.pixOffset
  rw [hs, hp, hs]
  unfold GoRect.dx GoRect.dy at *
  constructor
  · have h1 : 0 ≤ y - img.rect.minY := by omega
    have h2 : 0 ≤ x - img.rect.minX := by omega
    have h3 : (0:ℤ) ≤ 4 * (img.rect.maxX - img.rect.minX) := by omega
    positivity
  · nlinarith [mul_le_mul_of_nonneg_right
      (show y - img.rect.minY ≤ img.rect.maxY - img.rect.minY - 1 by omega)
      (show (0:ℤ) ≤ 4 * (img.rect.maxX - img.rect.minX) by omega)]

/-- C4: for every integer coordinate pair and every non-empty source
rectangle, border replication clamps the coordinate into the rectangle
before the storage offset is computed, so the four bytes read by the RGBA
fast path are in bounds of the pixel storage. -/
theorem claim4_replicate_border_safe :
    (∀ (x mn mx : ℤ), mn < mx →
      mn ≤ replicateBorder1d x mn mx ∧ replicateBorder1d x mn mx < mx) ∧
    (∀ (img : GoRGBA), img.wf →
      img.rect.minX < img.rect.maxX → img.rect.minY < img.rect.maxY →
      ∀ (x y : ℤ),
        0 ≤ img.pixOffset (replicateBorder x y img.rect).1 (replicateBorder x y img.rect).2 ∧
        img.pixOffset (replicateBorder x y img.rect).1 (replicateBorder x y img.rect).2 + 3
          < img.pixLen) := by
  constructor
  · exact replicateBorder1d_mem
  · intro img hwf hx hy x y
    obtain ⟨h1, h2, h3, h4⟩ := replicateBorder_mem x y img.rect hx hy
    exact pixOffset_in_bounds img hwf _ _ h1 h2 h3 h4

/-- C4 witness: a concrete 2 by 2 image with an out-of-range query. -/
theorem claim4_witness :
    ((0:ℤ) ≤ replicateBorder1d 7 0 2 ∧ replicateBorder1d 7 0 2 < 2) ∧
    (0 ≤ (GoRGBA.mk (GoRect.mk 0 0 2 2) 8 16).pixOffset
        (replicateBorder (-5) 9 (GoRect.mk 0 0 2 2)).1
        (replicateBorder (-5) 9 (GoRect.mk 0 0 2 2)).2 ∧
      (GoRGBA.mk (GoRect.mk 0 0 2 2) 8 16).pixOffset
        (replicateBorder (-5) 9 (GoRect.mk 0 0 2 2)).1
        (replicateBorder (-5) 9 (GoRect.mk 0 0 2 2)).2 + 3 < 16) :=
  ⟨claim4_replicate_border_safe.1 7 0 2 (by decide),
   claim4_replicate_border_safe.2 (GoRGBA.mk (GoRect.mk 0 0 2 2) 8 16)
     (by constructor <;> decide) (by decide) (by decide) (-5) 9⟩

/-- Embeds the channel widening of `rgbaConverter.at` in converter.go:
an 8-bit sample is replicated into the high and the low byte of a 16-bit
channel value. -/
def expandChannel (v : ℕ) : ℕ :=
  (v <<< 8) ||| v

/-- Embeds the channel widening of `ycbcrConverter.at` in converter.go:
the converted RGB byte is multiplied by 0x101. -/
def ycbcrChannelScale (v : ℕ) : ℕ :=
  v * 0x101

theorem expandChannel_fin : ∀ v : Fin 256,
    expandChannel v.val = 257 * v.val ∧ ycbcrChannelScale v.val = expandChannel v.val := by
  set_option maxRecDepth 4000 in decide

/-- C8: for every 8-bit channel value v, the widened 16-bit channel equals
(v shifted left by 8) or-ed with v, which is 257 times v, mapping 0 to 0
and 255 to 65535; the YCbCr path's multiplication by 0x101 produces the
same value. -/
theorem claim8_channel_widening (v : ℕ) (h : v < 256) :
    expandChannel v = 257 * v ∧ ycbcrChannelScale v = expandChannel v ∧
      expandChannel 0 = 0 ∧ expandChannel 255 = 65535 := by
  obtain ⟨h1, h2⟩ := expandChannel_fin ⟨v, h⟩
  exact ⟨h1, h2, by decide, by decide⟩

/-- C8 witness: the widening at the concrete channel value 128. -/
theorem claim8_witness :
    (128 < 256) ∧ (expandChannel 128 = 257 * 128 ∧
      ycbcrChannelScale 128 = expandChannel 128 ∧
      expandChannel 0 = 0 ∧ expandChannel 255 = 65535) :=
  ⟨by decide, claim8_channel_widening 128 (by decide)⟩

/-- Embeds the tap-window start computation of `filterModel.Interpolate`
in filters.go: `uf := int(u) - len(f.tempRow)/2 + 1`, where the Go
conversion `int(u)` truncates toward zero and `len/2` is integer
division. -/
def windowStart (u : ℚ) (support : ℕ) : ℤ :=
  ratTrunc u - (support / 2 : ℕ) + 1

/-- C3 counterexample: at the negative query coordinate -3/2 with a tap
buffer of length 4, the code starts the window at trunc(-3/2) - 1 = -2,
not at floor(-3/2) - 1 = -3 as the claim states. -/
theorem claim3_counterexample :
    windowStart (-3/2) 4 ≠ ⌊(-3/2 : ℚ)⌋ - ((4 / 2 : ℕ) : ℤ) + 1 := by
  have h1 : windowStart (-3/2) 4 = -2 := by
    rw [windowStart, ratTrunc, if_neg (by norm_num), ceil_neg_three_halves]
    decide
  have h2 : ⌊(-3/2 : ℚ)⌋ = -2 := by norm_num
  rw [h1, h2]
  decide

/-- C3 amended: the tap window starts at trunc(u) - support/2 + 1 where
trunc rounds toward zero; this agrees with floor(u) - support/2 + 1 for
u at least 0, but for negative u it is ceil(u) - support/2 + 1, which is
floor(u) + 1 - support/2 + 1 whenever u is not an integer. -/
theorem claim3_window_start (u : ℚ) (s : ℕ) :
    (0 ≤ u → windowStart u s = ⌊u⌋ - (s / 2 : ℕ) + 1) ∧
    (u < 0 → windowStart u s = ⌈u⌉ - (s / 2 : ℕ) + 1) ∧
    (u < 0 → (⌊u⌋ : ℚ) ≠ u → windowStart u s = ⌊u⌋ + 1 - (s / 2 : ℕ) + 1) := by
  refine ⟨fun h => by rw [windowStart, ratTrunc, if_pos h],
    fun h => by rw [windowStart, ratTrunc, if_neg (not_le.2 h)],
    fun h hne => ?_⟩
  rw [windowStart, ratTrunc, if_neg (not_le.2 h)]
  have hlt : (⌊u⌋ : ℚ) < u := lt_of_le_of_ne (Int.floor_le u) hne
  have h1 : ⌊u⌋ < ⌈u⌉ := Int.lt_ceil.2 hlt
  have h2 : ⌈u⌉ ≤ ⌊u⌋ + 1 := Int.ceil_le.2 (by
    push_cast
    exact (Int.lt_floor_add_one u).le)
  omega

/-- C3 witness: concrete window starts for a nonnegative and for a
negative fractional query coordinate with support 4. -/
theorem claim3_witness :
    windowStart (5/2) 4 = 1 ∧ windowStart (-3/2) 4 = -2 := by
  constructor
  · rw [(claim3_window_start (5/2) 4).1 (by norm_num)]
    norm_num
  · rw [(claim3_window_start (-3/2) 4).2.1 (by norm_num), ceil_neg_three_halves]
    decide

/-- Embeds `calcFactors` from resize.go: scaling factors from the old and
the new image dimensions; a zero target dimension inherits the other
axis's factor, and both zero gives the identity factors. -/
def calcFactors (width height : ℕ) (oldWidth oldHeight : ℚ) : ℚ × ℚ :=
  if width = 0 then
    if height = 0 then (1, 1)
    else (oldHeight / height, oldHeight / height)
  else
    if height = 0 then (oldWidth / width, oldWidth / width)
    else (oldWidth / width, oldHeight / height)

/-- Embeds the destination-bounds computation of `Resize` in resize.go:
the result raster is `image.Rect(0, 0, int(0.7+oldWidth/scaleX),
int(0.7+oldHeight/scaleY))`. -/
def resizeBounds (width height : ℕ) (oldBounds : GoRect) : GoRect :=
  let s := calcFactors width height (oldBounds.dx : ℚ) (oldBounds.dy : ℚ)
  GoRect.mk 0 0 (ratTrunc (7/10 + (oldBounds.dx : ℚ) / s.1))
    (ratTrunc (7/10 + (oldBounds.dy : ℚ) / s.2))

theorem resizeBounds_zero_zero (r : GoRect) (hx : r.minX ≤ r.maxX)
    (hy : r.minY ≤ r.maxY) :
    resizeBounds 0 0 r = GoRect.mk 0 0 r.dx r.dy := by
  have hdx : (0:ℤ) ≤ r.dx := by unfold GoRect.dx; omega
  have hdy : (0:ℤ) ≤ r.dy := by unfold GoRect.dy; omega
  show GoRect.mk 0 0 (ratTrunc (7/10 + (r.dx : ℚ) / 1))
    (ratTrunc (7/10 + (r.dy : ℚ) / 1)) = _
  rw [div_one, div_one, ratTrunc_frac_add_int _ _ (by norm_num) (by norm_num) hdx,
    ratTrunc_frac_add_int _ _ (by norm_num) (by norm_num) hdy]

/-- C5 counterexample: a source whose bounds have a nonzero minimum; the
result of Resize(0, 0, img, interp) has bounds anchored at the origin, so
the bounds are not equal to the source bounds. -/
theorem claim5_counterexample :
    resizeBounds 0 0 (GoRect.mk 1 1 2 2) ≠ GoRect.mk 1 1 2 2 := by
  intro h
  have h2 := congrArg GoRect.minX h
  rw [show (resizeBounds 0 0 (GoRect.mk 1 1 2 2)).minX = 0 from rfl] at h2
  exact absurd h2 (by decide)

/-- C5 amended: Resize(0, 0, img, interp) returns an image whose bounds
are the rectangle from (0,0) with the same width and height as the
source; these equal the source bounds exactly when the source minimum is
the origin. -/
theorem claim5_identity_bounds (r : GoRect) (hx : r.minX ≤ r.maxX)
    (hy : r.minY ≤ r.maxY) :
    resizeBounds 0 0 r = GoRect.mk 0 0 r.dx r.dy ∧
    (resizeBounds 0 0 r).dx = r.dx ∧ (resizeBounds 0 0 r).dy = r.dy ∧
    (resizeBounds 0 0 r = r ↔ r.minX = 0 ∧ r.minY = 0) := by
  have hb := resizeBounds_zero_zero r hx hy
  refine ⟨hb, by rw [hb]; show r.dx - 0 = r.dx; omega,
    by rw [hb]; show r.dy - 0 = r.dy; omega, ?_⟩
  rw [hb]
  unfold GoRect.dx GoRect.dy
  cases r
  simp only [GoRect.mk.injEq]
  constructor
  · rintro ⟨h1, h2, h3, h4⟩
    omega
  · rintro ⟨h1, h2⟩
    omega

/-- C5 witness: a 3 by 3 source anchored at the origin; the identity
resize keeps its bounds. -/
theorem claim5_witness :
    resizeBounds 0 0 (GoRect.mk 0 0 3 3) = GoRect.mk 0 0 3 3 :=
  ((claim5_identity_bounds (GoRect.mk 0 0 3 3) (by decide) (by decide)).2.2.2).mpr
    ⟨rfl, rfl⟩

/-- Embeds `numJobs` from resize.go: the number of parallel jobs is the
runtime CPU count, reduced to the band dimension when it exceeds it. -/
def numJobs (ncpu d : ℕ) : ℕ :=
  if ncpu > d then d else ncpu

/-- Start row (relative to the band dimension) of band i in the row
partition used by `Resize`: `i*(b.Dy())/n` with integer division. -/
def bandLo (H n i : ℕ) : ℕ :=
  i * H / n

/-- Absolute start row of band i: `b.Min.Y + i*(b.Dy())/n` as in the
slice rectangles built by `Resize` in resize.go. -/
def bandStart (minY : ℤ) (H n : ℕ) (i : ℕ) : ℤ :=
  minY + (bandLo H n i : ℤ)

/-- Number of rows of band i. -/
def bandSize (H n i : ℕ) : ℕ :=
  bandLo H n (i+1) - bandLo H n i

theorem numJobs_eq_min (ncpu d : ℕ) : numJobs ncpu d = min ncpu d := by
  unfold numJobs
  split_ifs <;> omega

theorem bandLo_le_succ (H n i : ℕ) : bandLo H n i ≤ bandLo H n (i+1) :=
  Nat.div_le_div_right (Nat.mul_le_mul_right H (Nat.le_succ i))

theorem bandLo_mono (H n : ℕ) {i j : ℕ} (h : i ≤ j) :
    bandLo H n i ≤ bandLo H n j :=
  Nat.div_le_div_right (Nat.mul_le_mul_right H h)

theorem bandLo_zero (H n : ℕ) : bandLo H n 0 = 0 := by
  simp [bandLo]

theorem bandLo_self (H n : ℕ) (hn : 0 < n) : bandLo H n n = H := by
  unfold bandLo
  rw [Nat.mul_comm]
  exact Nat.mul_div_cancel H hn

theorem bandLo_add_le (H n i : ℕ) (hn : 0 < n) :
    bandLo H n i + H / n ≤ bandLo H n (i+1) := by
  unfold bandLo
  rw [Nat.le_div_iff_mul_le hn, add_mul, Nat.succ_mul]
  exact Nat.add_le_add (Nat.div_mul_le_self _ _) (Nat.div_mul_le_self _ _)

theorem bandLo_succ_le (H n i : ℕ) (hn : 0 < n) :
    bandLo H n (i+1) ≤ bandLo H n i + H / n + 1 := by
  have h : (i+1) * H < (bandLo H n i + H / n + 2) * n := by
    have h1 := Nat.div_add_mod (i * H) n
    have h2 := Nat.div_add_mod H n
    have h3 := Nat.mod_lt (i * H) hn
    have h4 := Nat.mod_lt H hn
    unfold bandLo
    nlinarith
  exact Nat.lt_succ_iff.mp ((Nat.div_lt_iff_lt_mul hn).mpr h)

theorem exists_crossing (f : ℕ → ℕ) (y : ℕ) :
    ∀ n : ℕ, f 0 ≤ y → y < f n → ∃ i, i < n ∧ f i ≤ y ∧ y < f (i+1) := by
  intro n
  induction n with
  | zero => intro h0 hn; omega
  | succ m ih =>
    intro h0 hn
    by_cases hm : f m ≤ y
    · exact ⟨m, Nat.lt_succ_self m, hm, hn⟩
    · obtain ⟨i, hi, h1, h2⟩ := ih h0 (by omega)
      exact ⟨i, Nat.lt_succ_of_lt hi, h1, h2⟩

theorem crossing_unique (H n : ℕ) (y i j : ℕ)
    (hi : bandLo H n i ≤ y ∧ y < bandLo H n (i+1))
    (hj : bandLo H n j ≤ y ∧ y < bandLo H n (j+1)) : i = j := by
  rcases Nat.lt_trichotomy i j with h | h | h
  · have := bandLo_mono H n (show i + 1 ≤ j by omega)
    omega
  · exact h
  · have := bandLo_mono H n (show j + 1 ≤ i by omega)
    omega

/-- C6: for every destination height H at least 1 (and at least one CPU),
Resize uses n equal to the minimum of the CPU count and H bands; band i
covers rows from minY + i*H/n up to minY + (i+1)*H/n with integer
division; the bands are contiguous and monotone, they start at minY and
end at minY + H, every destination row lies in exactly one band, and any
two band sizes differ by at most one row. -/
theorem claim6_band_partition (ncpu H : ℕ) (minY : ℤ)
    (hc : 1 ≤ ncpu) (hH : 1 ≤ H) :
    numJobs ncpu H = min ncpu H ∧
    1 ≤ numJobs ncpu H ∧
    bandStart minY H (numJobs ncpu H) 0 = minY ∧
    bandStart minY H (numJobs ncpu H) (numJobs ncpu H) = minY + H ∧
    (∀ i, bandStart minY H (numJobs ncpu H) i ≤
      bandStart minY H (numJobs ncpu H) (i+1)) ∧
    (∀ y : ℤ, minY ≤ y → y < minY + H →
      ∃! i : ℕ, i < numJobs ncpu H ∧
        bandStart minY H (numJobs ncpu H) i ≤ y ∧
        y < bandStart minY H (numJobs ncpu H) (i+1)) ∧
    (∀ i j, i < numJobs ncpu H → j < numJobs ncpu H →
      bandSize H (numJobs ncpu H) i ≤ bandSize H (numJobs ncpu H) j + 1) := by
  have hmin := numJobs_eq_min ncpu H
  have hn : 0 < numJobs ncpu H := by omega
  have hnH : numJobs ncpu H ≤ H := by omega
  refine ⟨hmin, hn, ?_, ?_, ?_, ?_, ?_⟩
  · rw [bandStart, bandLo_zero]
    omega
  · rw [bandStart, bandLo_self H _ hn]
  · intro i
    have := bandLo_le_succ H (numJobs ncpu H) i
    unfold bandStart
    omega
  · intro y hy1 hy2
    obtain ⟨d, hd⟩ : ∃ d : ℕ, y = minY + d :=
      ⟨(y - minY).toNat, by omega⟩
    have hdH : d < H := by omega
    obtain ⟨i, hi, h1, h2⟩ := exists_crossing (bandLo H (numJobs ncpu H)) d
      (numJobs ncpu H) (by rw [bandLo_zero]; omega) (by rwa [bandLo_self H _ hn])
    refine ⟨i, ⟨hi, ?_, ?_⟩, ?_⟩
    · unfold bandStart; omega
    · unfold bandStart; omega
    · rintro j ⟨hj, hj1, hj2⟩
      refine crossing_unique H (numJobs ncpu H) d j i ⟨?_, ?_⟩ ⟨h1, h2⟩
      · unfold bandStart at hj1; omega
      · unfold bandStart at hj2; omega
  · intro i j hi hj
    have h1 := bandLo_succ_le H (numJobs ncpu H) i hn
    have h2 := bandLo_add_le H (numJobs ncpu H) j hn
    have h3 := bandLo_le_succ H (numJobs ncpu H) i
    have h4 := bandLo_le_succ H (numJobs ncpu H) j
    unfold bandSize
    omega

/-- C6 witness: 4 CPUs, 6 destination rows starting at row 0. -/
theorem claim6_witness :
    (1 ≤ 4 ∧ 1 ≤ 6) ∧
    (numJobs 4 6 = min 4 6 ∧
      1 ≤ numJobs 4 6 ∧
      bandStart 0 6 (numJobs 4 6) 0 = 0 ∧
      bandStart 0 6 (numJobs 4 6) (numJobs 4 6) = 0 + 6 ∧
      (∀ i, bandStart 0 6 (numJobs 4 6) i ≤ bandStart 0 6 (numJobs 4 6) (i+1)) ∧
      (∀ y : ℤ, 0 ≤ y → y < 0 + 6 →
        ∃! i : ℕ, i < numJobs 4 6 ∧ bandStart 0 6 (numJobs 4 6) i ≤ y ∧
          y < bandStart 0 6 (numJobs 4 6) (i+1)) ∧
      (∀ i j, i < numJobs 4 6 → j < numJobs 4 6 →
        bandSize 6 (numJobs 4 6) i ≤ bandSize 6 (numJobs 4 6) j + 1)) :=
  ⟨⟨by decide, by decide⟩, claim6_band_partition 4 6 0 (by decide) (by decide)⟩

/-- Total number of per-pixel interpolation calls issued by the worker
loops: each band contributes its row count times the destination
width. -/
def totalInterpolations (ncpu H W : ℕ) : ℕ :=
  ∑ i ∈ Finset.range (numJobs ncpu H), bandSize H (numJobs ncpu H) i * W

/-- C9 counterexample: a source with zero width but height 3. The result
of Resize(0, 0, ...) is zero-area, yet with 4 CPUs the job count is 3,
not 0: workers are spawned. -/
theorem claim9_counterexample :
    (resizeBounds 0 0 (GoRect.mk 0 0 0 3)).dx *
      (resizeBounds 0 0 (GoRect.mk 0 0 0 3)).dy = 0 ∧
    numJobs 4 ((resizeBounds 0 0 (GoRect.mk 0 0 0 3)).dy).toNat = 3 := by
  have hb := resizeBounds_zero_zero (GoRect.mk 0 0 0 3) (by decide) (by decide)
  rw [hb]
  constructor
  · show (0 - 0 : ℤ) * (3 - 0) = 0
    decide
  · show numJobs 4 ((3 - 0 : ℤ) - 0).toNat = 3
    decide

/-- C9 amended: for a zero-area source, Resize(0, 0, img, interp) returns
a zero-area result and performs no interpolation call; the job count is
min(CPUs, result height), which is 0 exactly when the result height is 0
(or there are no CPUs) - a zero-width source with positive height still
spawns workers, which then scan empty rows. -/
theorem claim9_zero_area (ncpu : ℕ) (r : GoRect)
    (hx : r.minX ≤ r.maxX) (hy : r.minY ≤ r.maxY)
    (hz : r.dx = 0 ∨ r.dy = 0) :
    (resizeBounds 0 0 r).dx * (resizeBounds 0 0 r).dy = 0 ∧
    totalInterpolations ncpu ((resizeBounds 0 0 r).dy).toNat
      ((resizeBounds 0 0 r).dx).toNat = 0 ∧
    (numJobs ncpu ((resizeBounds 0 0 r).dy).toNat = 0 ↔
      r.dy = 0 ∨ ncpu = 0) := by
  have hb := resizeBounds_zero_zero r hx hy
  rw [hb]
  have hdx : (GoRect.mk 0 0 r.dx r.dy).dx = r.dx := by
    show r.dx - 0 = r.dx; omega
  have hdy : (GoRect.mk 0 0 r.dx r.dy).dy = r.dy := by
    show r.dy - 0 = r.dy; omega
  rw [hdx, hdy]
  have hdy0 : (0:ℤ) ≤ r.dy := by unfold GoRect.dy; omega
  refine ⟨by rcases hz with h | h <;> rw [h] <;> ring, ?_, ?_⟩
  · rcases hz with h | h
    · rw [h]
      exact Finset.sum_eq_zero fun i _ => by simp
    · rw [h]
      show totalInterpolations ncpu 0 _ = 0
      unfold totalInterpolations
      have : numJobs ncpu 0 = 0 := by rw [numJobs_eq_min]; omega
      rw [this]
      simp
  · rw [numJobs_eq_min]
    omega

/-- C9 witness: 4 CPUs and a concrete zero-width source of height 3. -/
theorem claim9_witness :
    (resizeBounds 0 0 (GoRect.mk 0 0 0 3)).dx *
      (resizeBounds 0 0 (GoRect.mk 0 0 0 3)).dy = 0 ∧
    totalInterpolations 4 ((resizeBounds 0 0 (GoRect.mk 0 0 0 3)).dy).toNat
      ((resizeBounds 0 0 (GoRect.mk 0 0 0 3)).dx).toNat = 0 ∧
    (numJobs 4 ((resizeBounds 0 0 (GoRect.mk 0 0 0 3)).dy).toNat = 0 ↔
      (GoRect.mk 0 0 0 3).dy = 0 ∨ 4 = 0) :=
  claim9_zero_area 4 (GoRect.mk 0 0 0 3) (by decide) (by decide)
    (Or.inl (by decide))

/-- The absolute-value computation at the head of the table kernel
closure in filters.go: `if x < 0.0 then x = -x`. -/
def goAbs (x : ℚ) : ℚ :=
  if x < 0 then -x else x

theorem goAbs_eq_abs (x : ℚ) : goAbs x = |x| := by
  unfold goAbs
  split_ifs with h
  · rw [abs_of_neg h]
  · rw [abs_of_nonneg (not_lt.1 h)]

/-- Embeds the weight table built by `tableKernel` in filters.go:
tableSize+1 samples of the kernel over the domain from 0 to maxX, with
the last entry overwritten by `weights[tableSize] = 0.0`. -/
def tableWeights (kernel : ℚ → ℚ) (tableSize : ℕ) (maxX : ℚ) : List ℚ :=
  ((List.range (tableSize+1)).map
    fun i : ℕ => kernel (maxX * (i:ℚ) / (tableSize:ℚ))).set tableSize 0

/-- Embeds the closure returned by `tableKernel` in filters.go: take the
absolute value, scale into table index space, truncate to an integer
index, return 0 at or beyond the table size, otherwise linearly
interpolate between the two adjacent table entries. -/
def tableKernel (kernel : ℚ → ℚ) (tableSize : ℕ) (maxX : ℚ) : ℚ → ℚ :=
  fun x =>
    if ratTrunc (goAbs x / maxX * tableSize) ≥ (tableSize : ℤ) then 0
    else (tableWeights kernel tableSize maxX).getD
        (ratTrunc (goAbs x / maxX * tableSize)).toNat 0 +
      ((tableWeights kernel tableSize maxX).getD
          ((ratTrunc (goAbs x / maxX * tableSize)).toNat + 1) 0 -
        (tableWeights kernel tableSize maxX).getD
          (ratTrunc (goAbs x / maxX * tableSize)).toNat 0) *
        (goAbs x / maxX * tableSize - (ratTrunc (goAbs x / maxX * tableSize) : ℤ))

/-- The integer table slot used for a query x. -/
def tableIndex (tableSize : ℕ) (maxX x : ℚ) : ℕ :=
  (ratTrunc (goAbs x / maxX * tableSize)).toNat

/-- The fractional position of a query x between its two table slots. -/
def tableFrac (tableSize : ℕ) (maxX x : ℚ) : ℚ :=
  goAbs x / maxX * tableSize - tableIndex tableSize maxX x

theorem tableWeights_length (k : ℚ → ℚ) (T : ℕ) (mx : ℚ) :
    (tableWeights k T mx).length = T + 1 := by
  unfold tableWeights
  rw [List.length_set, List.length_map, List.length_range]

/-- C7 counterexample: with the constant-1 base kernel, table size 1 and
radius 1, the stored sample at index tableSize is 0, not
kernel(maxX*tableSize/tableSize) = 1: the last precomputed sample is
overwritten with 0. -/
theorem claim7_counterexample :
    (tableWeights (fun _ => (1:ℚ)) 1 1).getD 1 0 ≠ (fun _ : ℚ => (1:ℚ)) (1 * 1 / 1) := by
  have h : tableWeights (fun _ => (1:ℚ)) 1 1 = [1, 0] := by
    unfold tableWeights
    rw [show List.range 2 = [0, 1] from rfl]
    rfl
  rw [h]
  norm_num

/-- C7 amended: the look-up-table kernel stores kernel(maxX*i/tableSize)
for every index i below tableSize but forces the final entry (index
tableSize) to 0; it evaluates a query by taking the absolute value and
linearly interpolating between the two adjacent stored entries (a convex
combination weighted by the fractional index), and it returns exactly 0
for every x whose absolute value is at least maxX. -/
theorem claim7_table_kernel (k : ℚ → ℚ) (T : ℕ) (mx : ℚ)
    (hmx : 0 < mx) (hT : 1 ≤ T) :
    (∀ i, i < T → (tableWeights k T mx).getD i 0 = k (mx * i / T)) ∧
    (tableWeights k T mx).getD T 0 = 0 ∧
    (∀ x : ℚ, mx ≤ |x| → tableKernel k T mx x = 0) ∧
    (∀ x : ℚ, |x| < mx →
      tableKernel k T mx x =
        (1 - tableFrac T mx x) *
            (tableWeights k T mx).getD (tableIndex T mx x) 0 +
          tableFrac T mx x *
            (tableWeights k T mx).getD (tableIndex T mx x + 1) 0) := by
  have hlen := tableWeights_length k T mx
  refine ⟨?_, ?_, ?_, ?_⟩
  · intro i hi
    have hi1 : i < (tableWeights k T mx).length := by omega
    rw [List.getD_eq_getElem _ _ hi1]
    unfold tableWeights
    rw [List.getElem_set_ne (by omega), List.getElem_map, List.getElem_range]
  · have hT1 : T < (tableWeights k T mx).length := by omega
    rw [List.getD_eq_getElem _ _ hT1]
    unfold tableWeights
    rw [List.getElem_set_self]
  · intro x hx
    have h1 : (1:ℚ) ≤ |x| / mx := (one_le_div hmx).2 hx
    have h2 : (T:ℚ) ≤ |x| / mx * T := by
      nlinarith [show (0:ℚ) ≤ (T:ℚ) by positivity]
    unfold tableKernel
    rw [goAbs_eq_abs]
    have h3 : (T:ℤ) ≤ ratTrunc (|x| / mx * T) := by
      rw [ratTrunc, if_pos (by positivity)]
      exact Int.le_floor.2 (by push_cast; exact h2)
    rw [if_pos h3]
  · intro x hx
    have habs : (0:ℚ) ≤ |x| := abs_nonneg x
    have h1 : |x| / mx < 1 := (div_lt_one hmx).2 hx
    have h0 : (0:ℚ) ≤ |x| / mx * T := by positivity
    have hTQ : (0:ℚ) < (T:ℚ) := by exact_mod_cast hT
    have h2 : |x| / mx * T < T := by
      have := mul_lt_mul_of_pos_right h1 hTQ
      simpa using this
    have htr : ratTrunc (|x| / mx * T) = ⌊|x| / mx * T⌋ := by
      rw [ratTrunc, if_pos h0]
    have hlt : ⌊|x| / mx * T⌋ < (T:ℤ) := Int.floor_lt.2 (by push_cast; exact h2)
    have hge : (0:ℤ) ≤ ⌊|x| / mx * T⌋ := Int.le_floor.2 (by push_cast; exact h0)
    unfold tableKernel
    rw [goAbs_eq_abs, htr, if_neg (by omega)]
    have hidx : tableIndex T mx x = (⌊|x| / mx * T⌋).toNat := by
      unfold tableIndex
      rw [goAbs_eq_abs, htr]
    have hcast : ((⌊|x| / mx * T⌋).toNat : ℚ) = ((⌊|x| / mx * T⌋ : ℤ) : ℚ) := by
      exact_mod_cast congrArg (fun z : ℤ => (z : ℚ)) (Int.toNat_of_nonneg hge)
    have hfrac : tableFrac T mx x = |x| / mx * T - ⌊|x| / mx * T⌋ := by
      unfold tableFrac
      rw [goAbs_eq_abs, hidx, hcast]
    rw [hidx, hfrac]
    ring

/-- C7 witness: with base kernel the identity, table size 2 and radius 2,
the kernel vanishes at -5 and the stored sample at index 1 equals the
base kernel at 2*1/2. -/
theorem claim7_witness :
    tableKernel (fun t => t) 2 2 (-5) = 0 ∧
    (tableWeights (fun t => t) 2 2).getD 1 0 = (fun t : ℚ => t) (2 * (1:ℕ) / (2:ℕ)) :=
  ⟨(claim7_table_kernel (fun t => t) 2 2 (by norm_num) (by norm_num)).2.2.1 (-5)
      (by norm_num),
    (claim7_table_kernel (fun t => t) 2 2 (by norm_num) (by norm_num)).1 1
      (by norm_num)⟩

/-- The colorArray type of converter.go: one sample as four float
channels (red, green, blue, alpha). -/
abbrev colorArray := Fin 4 → ℚ

/-- The kernel weights computed inside `filterModel.convolution1d` in
filters.go: `k = f.kernel((x - float32(j)) / factor)` for j over the tap
window. -/
def kernelWeights (kernel : ℚ → ℚ) (x factor : ℚ) (len : ℕ) : List ℚ :=
  (List.range len).map fun j : ℕ => kernel ((x - (j:ℚ)) / factor)

/-- The weight sum accumulated by `convolution1d` and used as the
normalization denominator. -/
def weightSum (kernel : ℚ → ℚ) (x factor : ℚ) (len : ℕ) : ℚ :=
  (kernelWeights kernel x factor len).sum

/-- Embeds `filterModel.convolution1d` from filters.go: the weighted sum
of the window samples in each channel, divided by the weight sum. -/
def convolution1d (kernel : ℚ → ℚ) (x : ℚ) (p : List colorArray)
    (factor : ℚ) : colorArray :=
  fun i =>
    (List.zipWith (fun (pj : colorArray) (k : ℚ) => pj i * k) p
      (kernelWeights kernel x factor p.length)).sum /
    weightSum kernel x factor p.length

/-- Embeds `filterModel.Interpolate` from filters.go (the separable
two-pass variant): each window row is reduced by a horizontal 1-D
convolution, the column of row results is reduced by a vertical 1-D
convolution, and each channel is clamped to the uint16 range. -/
def Interpolate (kernel : ℚ → ℚ) (factor : ℚ × ℚ) (rowLen colLen : ℕ)
    (src : ℤ → ℤ → colorArray) (x y : ℚ) : Fin 4 → ℕ :=
  fun i =>
    clampToUint16
      (convolution1d kernel (y - (windowStart y colLen : ℤ))
        ((List.range colLen).map fun ci : ℕ =>
          convolution1d kernel (x - (windowStart x rowLen : ℤ))
            ((List.range rowLen).map fun rj : ℕ =>
              src (windowStart x rowLen + rj) (windowStart y colLen + ci))
            factor.1)
        factor.2 i)

theorem zipWith_channel_const (i : Fin 4) (v : ℚ) :
    ∀ (p : List colorArray) (ws : List ℚ), (∀ pj ∈ p, pj i = v) →
      p.length = ws.length →
      (List.zipWith (fun (pj : colorArray) (k : ℚ) => pj i * k) p ws).sum =
        v * ws.sum := by
  intro p
  induction p with
  | nil =>
    intro ws _ hlen
    rw [show ws = [] from List.eq_nil_of_length_eq_zero hlen.symm]
    simp
  | cons hd tl ih =>
    intro ws hp hlen
    cases ws with
    | nil => simp at hlen
    | cons w tlw =>
      have h1 : hd i = v := hp hd (List.mem_cons_self hd tl)
      have h2 := ih tlw (fun pj hm => hp pj (List.mem_cons_of_mem hd hm))
        (by simpa using hlen)
      simp only [List.zipWith_cons_cons, List.sum_cons, h1, h2]
      ring

theorem convolution1d_const_channel (kernel : ℚ → ℚ) (x factor : ℚ)
    (p : List colorArray) (i : Fin 4) (v : ℚ)
    (hp : ∀ pj ∈ p, pj i = v)
    (hs : weightSum kernel x factor p.length ≠ 0) :
    convolution1d kernel x p factor i = v := by
  unfold convolution1d
  rw [zipWith_channel_const i v p (kernelWeights kernel x factor p.length) hp
    (by rw [kernelWeights, List.length_map, List.length_range])]
  rw [show (kernelWeights kernel x factor p.length).sum =
    weightSum kernel x factor p.length from rfl]
  rw [mul_div_assoc, div_self hs, mul_one]

/-- C1: a 1-D weighted convolution over a window of samples that all
equal one color returns exactly that color whenever the kernel weight
sum over the window is nonzero; consequently the separable two-pass
interpolation of a source whose every sample is one color (with each
channel a uint16 value) reproduces that color at every output pixel. -/
theorem claim1_uniform_color :
    (∀ (kernel : ℚ → ℚ) (u f : ℚ) (m : ℕ) (c : colorArray),
      weightSum kernel u f m ≠ 0 →
      convolution1d kernel u (List.replicate m c) f = c) ∧
    (∀ (kernel : ℚ → ℚ) (factor : ℚ × ℚ) (rowLen colLen : ℕ) (x y : ℚ)
      (cv : Fin 4 → ℕ),
      (∀ i, cv i ≤ 65535) →
      weightSum kernel (x - (windowStart x rowLen : ℤ)) factor.1 rowLen ≠ 0 →
      weightSum kernel (y - (windowStart y colLen : ℤ)) factor.2 colLen ≠ 0 →
      Interpolate kernel factor rowLen colLen
        (fun _ _ => fun i => (cv i : ℚ)) x y = cv) := by
  constructor
  · intro kernel u f m c hs
    funext i
    refine convolution1d_const_channel kernel u f (List.replicate m c) i (c i)
      (fun pj hm => by rw [List.eq_of_mem_replicate hm]) ?_
    rwa [List.length_replicate]
  · intro kernel factor rowLen colLen x y cv hcv hrow hcol
    funext i
    unfold Interpolate
    have hinner : ∀ pj ∈ (List.range colLen).map fun ci : ℕ =>
        convolution1d kernel (x - (windowStart x rowLen : ℤ))
          ((List.range rowLen).map fun rj : ℕ =>
            (fun (_ _ : ℤ) => fun i => (cv i : ℚ))
              (windowStart x rowLen + rj) (windowStart y colLen + ci))
          factor.1,
        pj i = (cv i : ℚ) := by
      intro pj hm
      obtain ⟨ci, _, hci⟩ := List.mem_map.1 hm
      rw [← hci]
      refine convolution1d_const_channel kernel _ factor.1 _ i (cv i)
        (fun q hq => ?_) ?_
      · obtain ⟨rj, _, hrj⟩ := List.mem_map.1 hq
        rw [← hrj]
      · rwa [List.length_map, List.length_range]
    have houter := convolution1d_const_channel kernel
      (y - (windowStart y colLen : ℤ)) factor.2 _ i ((cv i : ℚ)) hinner
      (by rwa [List.length_map, List.length_range])
    rw [houter, clampToUint16_natCast (cv i) (hcv i)]

/-- C1 witness: the constant-1 kernel over a window of two identical
samples, and a 2 by 2 interpolation of a uniform 16-bit gray source. -/
theorem claim1_witness :
    (weightSum (fun _ => (1:ℚ)) 0 1 2 ≠ 0 ∧
      convolution1d (fun _ => (1:ℚ)) 0
        (List.replicate 2 (fun _ => (5:ℚ))) 1 = fun _ => (5:ℚ)) ∧
    Interpolate (fun _ => (1:ℚ)) (1, 1) 2 2
      (fun _ _ => fun i => ((fun _ : Fin 4 => (32896:ℕ)) i : ℚ)) 0 0 =
      fun _ : Fin 4 => (32896:ℕ) := by
  have hs : weightSum (fun _ => (1:ℚ)) 0 1 2 ≠ 0 := by
    norm_num [weightSum, kernelWeights, List.range_succ]
  refine ⟨⟨hs, claim1_uniform_color.1 (fun _ => (1:ℚ)) 0 1 2 (fun _ => (5:ℚ)) hs⟩, ?_⟩
  refine claim1_uniform_color.2 (fun _ => (1:ℚ)) (1, 1) 2 2 0 0
    (fun _ => (32896:ℕ)) (fun i => by norm_num) ?_ ?_
  · norm_num [weightSum, kernelWeights, List.range_succ]
  · norm_num [weightSum, kernelWeights, List.range_succ]

/-- A Go `image.Gray` raster: bounds, stride and the byte storage. -/
structure GoGray where
  rect : GoRect
  stride : ℤ
  pix : List ℕ

/-- `PixOffset` of image.Gray: one byte per pixel. -/
def GoGray.pixOffset (img : GoGray) (x y : ℤ) : ℤ :=
  (y - img.rect.minY) * img.stride + (x - img.rect.minX)

/-- Embeds `grayConverter.at` from converter.go: replicate the border,
widen the 8-bit luma into all three color channels and set the alpha
channel to 0xffff. -/
def grayConverterAt (c : GoGray) (x y : ℤ) : colorArray :=
  fun i =>
    if i.val = 3 then (65535 : ℚ)
    else (expandChannel (c.pix.getD
      (c.pixOffset (replicateBorder x y c.rect).1
        (replicateBorder x y c.rect).2).toNat 0) : ℚ)

/-- A Go `image.Gray16` raster: bounds, stride and the byte storage. -/
structure GoGray16 where
  rect : GoRect
  stride : ℤ
  pix : List ℕ

/-- `PixOffset` of image.Gray16: two bytes per pixel. -/
def GoGray16.pixOffset (img : GoGray16) (x y : ℤ) : ℤ :=
  (y - img.rect.minY) * img.stride + (x - img.rect.minX) * 2

/-- Embeds `gray16Converter.at` from converter.go: replicate the border,
combine the two luma bytes into a 16-bit value for all three color
channels and set the alpha channel to 0xffff. -/
def gray16ConverterAt (c : GoGray16) (x y : ℤ) : colorArray :=
  fun i =>
    if i.val = 3 then (65535 : ℚ)
    else (((c.pix.getD
        (c.pixOffset (replicateBorder x y c.rect).1
          (replicateBorder x y c.rect).2).toNat 0) <<< 8 |||
      c.pix.getD
        ((c.pixOffset (replicateBorder x y c.rect).1
          (replicateBorder x y c.rect).2).toNat + 1) 0 : ℕ) : ℚ)

/-- A Go `image.YCbCr` raster. The plane offset functions `YOffset` and
`COffset` and the conversion `color.YCbCrToRGB` live in the Go standard
library (external collaborators), so they are abstract fields here. -/
structure GoYCbCr where
  rect : GoRect
  yPlane : List ℕ
  cbPlane : List ℕ
  crPlane : List ℕ
  yOffset : ℤ → ℤ → ℤ
  cOffset : ℤ → ℤ → ℤ
  toRGB : ℕ → ℕ → ℕ → ℕ × ℕ × ℕ

/-- Embeds `ycbcrConverter.at` from converter.go: replicate the border,
convert the subsampled luma and chroma bytes to RGB, widen each byte by
the 0x101 multiplication, and set the alpha channel to 0xffff. -/
def ycbcrConverterAt (c : GoYCbCr) (x y : ℤ) : colorArray :=
  fun i =>
    if i.val = 0 then
      (ycbcrChannelScale (c.toRGB
        (c.yPlane.getD (c.yOffset (replicateBorder x y c.rect).1
          (replicateBorder x y c.rect).2).toNat 0)
        (c.cbPlane.getD (c.cOffset (replicateBorder x y c.rect).1
          (replicateBorder x y c.rect).2).toNat 0)
        (c.crPlane.getD (c.cOffset (replicateBorder x y c.rect).1
          (replicateBorder x y c.rect).2).toNat 0)).1 : ℚ)
    else if i.val = 1 then
      (ycbcrChannelScale (c.toRGB
        (c.yPlane.getD (c.yOffset (replicateBorder x y c.rect).1
          (replicateBorder x y c.rect).2).toNat 0)
        (c.cbPlane.getD (c.cOffset (replicateBorder x y c.rect).1
          (replicateBorder x y c.rect).2).toNat 0)
        (c.crPlane.getD (c.cOffset (replicateBorder x y c.rect).1
          (replicateBorder x y c.rect).2).toNat 0)).2.1 : ℚ)
    else if i.val = 2 then
      (ycbcrChannelScale (c.toRGB
        (c.yPlane.getD (c.yOffset (replicateBorder x y c.rect).1
          (replicateBorder x y c.rect).2).toNat 0)
        (c.cbPlane.getD (c.cOffset (replicateBorder x y c.rect).1
          (replicateBorder x y c.rect).2).toNat 0)
        (c.crPlane.getD (c.cOffset (replicateBorder x y c.rect).1
          (replicateBorder x y c.rect).2).toNat 0)).2.2 : ℚ)
    else (65535 : ℚ)

/-- C10: the Gray, Gray16 and YCbCr pixel converters always return a
color whose alpha channel is exactly 0xffff, and interpolating any
source whose alpha channel is 0xffff everywhere yields the fully opaque
alpha 0xffff at every output pixel (whenever the window weight sums are
nonzero). -/
theorem claim10_opaque_alpha :
    (∀ (c : GoGray) (x y : ℤ), grayConverterAt c x y 3 = 65535) ∧
    (∀ (c : GoGray16) (x y : ℤ), gray16ConverterAt c x y 3 = 65535) ∧
    (∀ (c : GoYCbCr) (x y : ℤ), ycbcrConverterAt c x y 3 = 65535) ∧
    (∀ (kernel : ℚ → ℚ) (factor : ℚ × ℚ) (rowLen colLen : ℕ) (x y : ℚ)
      (src : ℤ → ℤ → colorArray),
      (∀ p q : ℤ, src p q 3 = 65535) →
      weightSum kernel (x - (windowStart x rowLen : ℤ)) factor.1 rowLen ≠ 0 →
      weightSum kernel (y - (windowStart y colLen : ℤ)) factor.2 colLen ≠ 0 →
      Interpolate kernel factor rowLen colLen src x y 3 = 65535) := by
  refine ⟨fun c x y => rfl, fun c x y => rfl, fun c x y => rfl, ?_⟩
  intro kernel factor rowLen colLen x y src hsrc hrow hcol
  unfold Interpolate
  have hinner : ∀ pj ∈ (List.range colLen).map fun ci : ℕ =>
      convolution1d kernel (x - (windowStart x rowLen : ℤ))
        ((List.range rowLen).map fun rj : ℕ =>
          src (windowStart x rowLen + rj) (windowStart y colLen + ci))
        factor.1,
      pj 3 = (65535 : ℚ) := by
    intro pj hm
    obtain ⟨ci, _, hci⟩ := List.mem_map.1 hm
    rw [← hci]
    refine convolution1d_const_channel kernel _ factor.1 _ 3 65535
      (fun q hq => ?_) ?_
    · obtain ⟨rj, _, hrj⟩ := List.mem_map.1 hq
      rw [← hrj]
      exact hsrc _ _
    · rwa [List.length_map, List.length_range]
  have houter := convolution1d_const_channel kernel
    (y - (windowStart y colLen : ℤ)) factor.2 _ 3 65535 hinner
    (by rwa [List.length_map, List.length_range])
  rw [houter]
  have h : ((65535:ℕ) : ℚ) = (65535 : ℚ) := by norm_num
  rw [← h, clampToUint16_natCast 65535 (le_refl _)]

/-- C10 witness: a concrete one-pixel gray image, and a 2 by 2
interpolation of a source that is opaque everywhere. -/
theorem claim10_witness :
    grayConverterAt (GoGray.mk (GoRect.mk 0 0 1 1) 1 [7]) 0 0 3 = 65535 ∧
    Interpolate (fun _ => (1:ℚ)) (1, 1) 2 2
      (fun _ _ => fun _ => (65535:ℚ)) 0 0 3 = 65535 := by
  refine ⟨claim10_opaque_alpha.1 (GoGray.mk (GoRect.mk 0 0 1 1) 1 [7]) 0 0, ?_⟩
  refine claim10_opaque_alpha.2.2.2 (fun _ => (1:ℚ)) (1, 1) 2 2 0 0
    (fun _ _ => fun _ => (65535:ℚ)) (fun p q => rfl) ?_ ?_
  · norm_num [weightSum, kernelWeights, List.range_succ]
  · norm_num [weightSum, kernelWeights, List.range_succ]

/-- Embeds the nearest-neighbor kernel of `NearestNeighbor` in
filters.go: 1 on the interval from -0.5 inclusive to 0.5 exclusive,
otherwise 0. -/
def nearestKernel : ℚ → ℚ :=
  fun x => if -1/2 ≤ x ∧ x < 1/2 then 1 else 0

/-- Embeds the bilinear kernel of `Bilinear` in filters.go (final,
clamped variant): 1 - absX inside the unit interval, 0 outside. -/
def bilinearKernel : ℚ → ℚ :=
  fun x => if |x| ≤ 1 then 1 - |x| else 0

/-- Embeds `splineKernel` from filters.go: the B,C cubic convolution
family, with the closed-form coefficients inlined. -/
def splineKernel (B C : ℚ) : ℚ → ℚ :=
  fun x =>
    if |x| ≤ 1 then
      |x| * |x| * ((2 - 3/2*B - C) * |x| + (-3 + 2*B + C)) + (1 - 1/3*B)
    else if |x| ≤ 2 then
      |x| * (|x| * (|x| * (-B/6 - C) + (B + 5*C)) + (-2*B - 8*C)) + (4/3*B + 4*C)
    else 0

/-- `Bicubic` in filters.go (final variant): the spline kernel at B = 0,
C = 0.5. -/
def bicubicKernel : ℚ → ℚ := splineKernel 0 (1/2)

/-- `MitchellNetravali` in filters.go: the spline kernel at
B = C = 1/3. -/
def mitchellNetravaliKernel : ℚ → ℚ := splineKernel (1/3) (1/3)

/-- Embeds the early `Bicubic` kernel of filters.go (the historical
variant cited at lines 118 to 128): piecewise cubic with no clamp to 0
beyond distance 2. -/
def bicubicKernel2012 : ℚ → ℚ :=
  fun x =>
    if |x| ≤ 1 then |x| * |x| * (3/2 * |x| - 5/2) + 1
    else |x| * (|x| * (5/2 - 1/2 * |x|) - 4) + 2

/-- Modelled from the spec: `Sinc` is referenced by `lanczosKernel` in
filters.go and tested by sinc_test.go, but its defining source file is
not part of the sources; the spec states sinc(0) = 1 and
sinc(x) = sin(pi x)/(pi x) elsewhere. -/
noncomputable def Sinc (x : ℝ) : ℝ :=
  if x = 0 then 1 else Real.sin (Real.pi * x) / (Real.pi * x)

/-- Embeds `lanczosKernel` from filters.go (final, guarded variant):
Sinc(x) Sinc(x/a) strictly inside the support radius a, 0 outside. -/
noncomputable def lanczosKernel (a : ℕ) : ℝ → ℝ :=
  fun x => if -(a:ℝ) < x ∧ x < (a:ℝ) then Sinc x * Sinc (x / a) else 0

theorem Sinc_zero : Sinc 0 = 1 := by
  simp [Sinc]

theorem abs_Sinc_le_one (t : ℝ) : |Sinc t| ≤ 1 := by
  unfold Sinc
  split_ifs with h
  · norm_num
  · have hπt : Real.pi * t ≠ 0 := mul_ne_zero Real.pi_ne_zero h
    rw [abs_div, div_le_one (abs_pos.2 hπt)]
    exact Real.abs_sin_le_abs

theorem lanczosKernel_zero (a : ℕ) (ha : 0 < a) : lanczosKernel a 0 = 1 := by
  have haR : (0:ℝ) < (a:ℝ) := by exact_mod_cast ha
  unfold lanczosKernel
  rw [if_pos ⟨by linarith, haR⟩, zero_div, Sinc_zero, one_mul]

theorem lanczosKernel_le (a : ℕ) (ha : 0 < a) (x : ℝ) :
    lanczosKernel a x ≤ lanczosKernel a 0 := by
  rw [lanczosKernel_zero a ha]
  unfold lanczosKernel
  split_ifs with h
  · calc Sinc x * Sinc (x / a) ≤ |Sinc x * Sinc (x / a)| := le_abs_self _
      _ = |Sinc x| * |Sinc (x / a)| := abs_mul _ _
      _ ≤ 1 * 1 :=
        mul_le_mul (abs_Sinc_le_one x) (abs_Sinc_le_one (x / a))
          (abs_nonneg _) (by norm_num)
      _ = 1 := one_mul 1
  · norm_num

theorem lanczosKernel_support (a : ℕ) (x : ℝ) (h : (a:ℝ) ≤ |x|) :
    lanczosKernel a x = 0 := by
  unfold lanczosKernel
  rw [if_neg]
  rintro ⟨h1, h2⟩
  rcases le_abs.1 h with h3 | h3 <;> linarith

/-- C2 counterexample: the early Bicubic kernel of filters.go (lines 118
to 128) at distance 3, which is at least its radius 2, evaluates to -1,
not 0: the historical cubic variants are not clamped outside their
support. -/
theorem claim2_counterexample :
    (2:ℚ) ≤ |(3:ℚ)| ∧ bicubicKernel2012 3 ≠ 0 := by
  constructor
  · norm_num
  · unfold bicubicKernel2012
    rw [show |(3:ℚ)| = 3 by norm_num]
    norm_num

/-- C2 amended: for the final clamped kernels of the library (nearest,
bilinear, spline-family Bicubic and MitchellNetravali, guarded Lanczos2
and Lanczos3), kernel(0) is the maximum attained weight and the kernel
is exactly 0 at and beyond its radius (1, 1, 2, 2, 2 and 3
respectively); the early unclamped Bicubic and Lanczos variants violate
the zero-outside-radius clause. -/
theorem claim2_kernel_bounds :
    (∀ x : ℚ, nearestKernel x ≤ nearestKernel 0 ∧
      (1 ≤ |x| → nearestKernel x = 0)) ∧
    (∀ x : ℚ, bilinearKernel x ≤ bilinearKernel 0 ∧
      (1 ≤ |x| → bilinearKernel x = 0)) ∧
    (∀ x : ℚ, bicubicKernel x ≤ bicubicKernel 0 ∧
      (2 ≤ |x| → bicubicKernel x = 0)) ∧
    (∀ x : ℚ, mitchellNetravaliKernel x ≤ mitchellNetravaliKernel 0 ∧
      (2 ≤ |x| → mitchellNetravaliKernel x = 0)) ∧
    (∀ x : ℝ, lanczosKernel 2 x ≤ lanczosKernel 2 0 ∧
      ((2:ℝ) ≤ |x| → lanczosKernel 2 x = 0)) ∧
    (∀ x : ℝ, lanczosKernel 3 x ≤ lanczosKernel 3 0 ∧
      ((3:ℝ) ≤ |x| → lanczosKernel 3 x = 0)) := by
  refine ⟨fun x => ⟨?_, fun h => ?_⟩, fun x => ⟨?_, fun h => ?_⟩,
    fun x => ⟨?_, fun h => ?_⟩, fun x => ⟨?_, fun h => ?_⟩,
    fun x => ⟨lanczosKernel_le 2 (by norm_num) x,
      fun h => lanczosKernel_support 2 x (by push_cast; exact h)⟩,
    fun x => ⟨lanczosKernel_le 3 (by norm_num) x,
      fun h => lanczosKernel_support 3 x (by push_cast; exact h)⟩⟩
  · have h0 : nearestKernel 0 = 1 := by norm_num [nearestKernel]
    rw [h0]
    unfold nearestKernel
    split_ifs <;> norm_num
  · unfold nearestKernel
    rw [if_neg]
    rintro ⟨h1, h2⟩
    rcases le_abs.1 h with h3 | h3 <;> linarith
  · have h0 : bilinearKernel 0 = 1 := by norm_num [bilinearKernel]
    rw [h0]
    unfold bilinearKernel
    have := abs_nonneg x
    split_ifs <;> linarith
  · unfold bilinearKernel
    split_ifs with h1
    · have : |x| = 1 := le_antisymm h1 h
      rw [this]
      norm_num
    · rfl
  · have h0 : bicubicKernel 0 = 1 := by norm_num [bicubicKernel, splineKernel]
    rw [h0]
    unfold bicubicKernel splineKernel
    have ht0 := abs_nonneg x
    split_ifs with h1 h2
    · nlinarith [sq_nonneg |x|]
    · nlinarith [sq_nonneg (|x| - 4/3), mul_nonneg (sub_nonneg.2 (le_of_not_le h1))
        (sub_nonneg.2 h2)]
    · norm_num
  · unfold bicubicKernel splineKernel
    split_ifs with h1 h2
    · linarith
    · have he : |x| = 2 := le_antisymm h2 h
      rw [he]
      norm_num
    · rfl
  · have h0 : mitchellNetravaliKernel 0 = 8/9 := by
      norm_num [mitchellNetravaliKernel, splineKernel]
    rw [h0]
    unfold mitchellNetravaliKernel splineKernel
    have ht0 := abs_nonneg x
    split_ifs with h1 h2
    · nlinarith [sq_nonneg |x|]
    · nlinarith [sq_nonneg (|x| - 10/7), mul_nonneg (sub_nonneg.2 (le_of_not_le h1))
        (sub_nonneg.2 h2), sq_nonneg (|x| - 2)]
    · norm_num
  · unfold mitchellNetravaliKernel splineKernel
    split_ifs with h1 h2
    · linarith
    · have he : |x| = 2 := le_antisymm h2 h
      rw [he]
      norm_num
    · rfl

/-- C2 witness: the final Bicubic kernel vanishes at its radius 2, and
the guarded Lanczos3 kernel vanishes at 5. -/
theorem claim2_witness :
    bicubicKernel 2 = 0 ∧ lanczosKernel 3 5 = 0 :=
  ⟨(claim2_kernel_bounds.2.2.1 2).2 (by norm_num),
    (claim2_kernel_bounds.2.2.2.2.2 5).2 (by norm_num)⟩

end Resize
